import Mathlib

/-!
Verification of the topic/address normalisation, transmitter-cache,
command-dispatch and retransmission logic of the node-red-contrib-rfxcom
package (src/rfxcom.js), via a shallow embedding in Lean.

JavaScript strings are modelled as `List Char` (with `String` wrappers at
the statement level), JS numbers arising from `parseInt` as `Option Int`
(`none` models `NaN`), and general JS numbers as the type `JsNum` below.
-/

namespace Rfxcom

/-! ## JavaScript character and string primitives -/

/-- Whitespace recognised by JS `String.prototype.trim` (the ASCII subset,
which is all the source ever feeds it). -/
def isSpaceJs (c : Char) : Bool :=
  c = ' ' || c = '\t' || c = '\n' || c = '\r' || c = '\x0b' || c = '\x0c'

/-- ASCII uppercase conversion, as done by JS `toUpperCase` on the ASCII
protocol names the source handles; every non-lowercase character is left
unchanged. -/
def asciiUpper (c : Char) : Char :=
  match c with
  | 'a' => 'A' | 'b' => 'B' | 'c' => 'C' | 'd' => 'D' | 'e' => 'E' | 'f' => 'F'
  | 'g' => 'G' | 'h' => 'H' | 'i' => 'I' | 'j' => 'J' | 'k' => 'K' | 'l' => 'L'
  | 'm' => 'M' | 'n' => 'N' | 'o' => 'O' | 'p' => 'P' | 'q' => 'Q' | 'r' => 'R'
  | 's' => 'S' | 't' => 'T' | 'u' => 'U' | 'v' => 'V' | 'w' => 'W' | 'x' => 'X'
  | 'y' => 'Y' | 'z' => 'Z'
  | other => other

/-- ASCII lowercase conversion (used to model case-insensitive regexes). -/
def asciiLower (c : Char) : Char :=
  if 'A' ≤ c && c ≤ 'Z' then Char.ofNat (c.toNat + 32) else c

def isDigitChar (c : Char) : Bool := '0' ≤ c && c ≤ '9'

def isAsciiLetter (c : Char) : Bool :=
  ('A' ≤ c && c ≤ 'Z') || ('a' ≤ c && c ≤ 'z')

/-- JS `String.prototype.trim`: drop leading and trailing whitespace. -/
def trimJs (cs : List Char) : List Char :=
  ((cs.dropWhile isSpaceJs).reverse.dropWhile isSpaceJs).reverse

/-- JS `str.replace(/ +/g, '_')`: every maximal run of spaces becomes one
underscore.  The boolean argument records whether we are inside a run. -/
def collapseSpaces : Bool → List Char → List Char
  | _, [] => []
  | inRun, c :: cs =>
    if c = ' ' then
      if inRun then collapseSpaces true cs else '_' :: collapseSpaces true cs
    else c :: collapseSpaces false cs

def upperJs (cs : List Char) : List Char := cs.map asciiUpper

def lowerJs (cs : List Char) : List Char := cs.map asciiLower

/-- `pat` occurs at the start of `s`. -/
def headMatch : List Char → List Char → Bool
  | [], _ => true
  | _ :: _, [] => false
  | p :: ps, c :: cs => p = c && headMatch ps cs

/-- `pat` occurs somewhere inside `s` (JS `/pat/.test(s)` for a literal
pattern). -/
def hasSub (pat : List Char) : List Char → Bool
  | [] => headMatch pat []
  | c :: cs => headMatch pat (c :: cs) || hasSub pat cs

/-- Case-insensitive substring test, modelling `/pat/i.test(s)` for a
literal lowercase pattern `pat`. -/
def containsCI (pat : List Char) (cs : List Char) : Bool :=
  hasSub pat (lowerJs cs)

/-- JS `str.split('/')`: split at every `'/'`, keeping empty pieces. -/
def splitSlash : List Char → List (List Char)
  | [] => [[]]
  | c :: cs =>
    if c = '/' then [] :: splitSlash cs
    else
      match splitSlash cs with
      | [] => [[c]]
      | p :: ps => (c :: p) :: ps

/-- `stringToParts` (rfxcom.js:187): split a slash-delimited path on `'/'`
and remove the empty components.  The core, on character lists. -/
def stringToPartsc (cs : List Char) : List (List Char) :=
  (splitSlash cs).filter (fun p => p ≠ [])

/-- `stringToParts` on a raw JS value: a non-string (modelled `none`)
yields the empty array. -/
def stringToParts : Option String → List (List Char)
  | none => []
  | some s => stringToPartsc s.data

/-- Numeric value of one digit character, if it is valid in the given
radix (JS `parseInt` digit handling, case-insensitive letters). -/
def digitValueJs (radix : Nat) (c : Char) : Option Nat :=
  let v : Option Nat :=
    if '0' ≤ c && c ≤ '9' then some (c.toNat - 48)
    else if 'a' ≤ c && c ≤ 'z' then some (c.toNat - 87)
    else if 'A' ≤ c && c ≤ 'Z' then some (c.toNat - 55)
    else none
  match v with
  | some n => if n < radix then some n else none
  | none => none

/-- JS `parseInt(s, radix)` for the radixes the source uses (10, 16, 36):
skip leading whitespace, optional sign, optional `0x` prefix when the
radix is 16, then the longest prefix of valid digits; `NaN` (`none`) when
no digit is found.  Trailing junk is ignored. -/
def parseIntJs (radix : Nat) (cs : List Char) : Option Int :=
  let s1 := cs.dropWhile isSpaceJs
  let (sign, s2) : Int × List Char :=
    match s1 with
    | '-' :: t => (-1, t)
    | '+' :: t => (1, t)
    | t => (1, t)
  let s3 :=
    if radix = 16 then
      match s2 with
      | '0' :: 'x' :: t => t
      | '0' :: 'X' :: t => t
      | t => t
    else s2
  let ds := s3.takeWhile (fun c => (digitValueJs radix c).isSome)
  if ds = [] then none
  else some (sign * (ds.foldl (fun acc c => acc * radix + ((digitValueJs radix c).getD 0)) 0))

/-! ## Normalised topics -/

/-- One component of a normalised topic array: either a raw string part or
a JS number produced by `parseInt` (`num none` is `NaN`). -/
inductive TopicPart where
  | str (s : List Char)
  | num (n : Option Int)
deriving DecidableEq, Repr

/-- Normalisation of the protocol-name segment (rfxcom.js:205):
`parts[0].trim().replace(/ +/g, '_').toUpperCase()`. -/
def normProto (cs : List Char) : List Char :=
  upperJs (collapseSpaces false (trimJs cs))

/-- `/^[A-Z]$/i.test(s)`: a single ASCII letter. -/
def singleLetter : List Char → Bool
  | [c] => isAsciiLetter c
  | _ => false

/-- `/^0+$|all|group|^\+$/i.test(s)`: all zeros, or containing `all` or
`group` as a (case-insensitive) substring, or exactly `+`. -/
def wildcardPart (cs : List Char) : Bool :=
  (cs ≠ [] && cs.all (fun c => c = '0')) ||
  containsCI ['a', 'l', 'l'] cs ||
  containsCI ['g', 'r', 'o', 'u', 'p'] cs ||
  cs = ['+']

/-- The second topic segment (rfxcom.js:207): a single letter is a house
code in base 36, anything else is a hexadecimal device id. -/
def parseIdPart (cs : List Char) : Option Int :=
  if singleLetter cs then parseIntJs 36 (trimJs cs)
  else parseIntJs 16 (trimJs cs)

/-- The third topic segment (rfxcom.js:216): a single letter is a Blyss
group code in base 36, anything else a decimal unit code. -/
def parseUnitPart (cs : List Char) : Option Int :=
  if singleLetter cs then parseIntJs 36 (trimJs cs)
  else parseIntJs 10 (trimJs cs)

/-- The part of `normaliseTopic` handling a path of at least two
segments (rfxcom.js:207-234): the id segment, the optional unit and
group segments with their wildcard truncation, and any parts beyond the
fourth left as raw strings, exactly as in the source. -/
def normaliseTail (a b : List Char) (rest : List (List Char)) : List TopicPart :=
  let a' := TopicPart.str (normProto a)
  let b' := TopicPart.num (parseIdPart b)
  match rest with
  | [] => [a', b']
  | c :: rest2 =>
    if wildcardPart c then [a', b']
    else
      let c' := TopicPart.num (parseUnitPart c)
      match rest2 with
      | [] => [a', b', c']
      | d :: rest3 =>
        if wildcardPart d then [a', b', c']
        else [a', b', c', .num (parseIntJs 10 (trimJs d))] ++ rest3.map .str

/-- `normaliseTopic` (rfxcom.js:199) on the character-list core. -/
def normaliseTopicc (cs : List Char) : List TopicPart :=
  match stringToPartsc cs with
  | [] => []
  | [a] => [.str (normProto a)]
  | a :: b :: rest => normaliseTail a b rest

/-- `normaliseTopic` on a raw JS value: `undefined` or a non-string
(modelled `none`) yields the empty array (rfxcom.js:200). -/
def normaliseTopic : Option String → List TopicPart
  | none => []
  | some s => normaliseTopicc s.data

/-- JS strict equality (`===`) on topic parts.  `NaN` is not equal to
anything, including itself; strings and numbers are never equal. -/
def jsEqPart : TopicPart → TopicPart → Bool
  | .str a, .str b => a = b
  | .num (some x), .num (some y) => x = y
  | _, _ => false

/-- `checkTopic` (rfxcom.js:245): every position of the pattern must be
strictly equal to the corresponding position of the candidate; a missing
candidate position (JS `undefined`) never equals a pattern entry. -/
def checkTopic : List TopicPart → List TopicPart → Bool
  | _, [] => true
  | [], _ :: _ => false
  | c :: cs, p :: ps => jsEqPart c p && checkTopic cs ps

/-- `normaliseAndCheckTopic` (rfxcom.js:240). -/
def normaliseAndCheckTopic (topic : Option String) (pattern : List TopicPart) : Bool :=
  checkTopic (normaliseTopic topic) pattern

/-! ## Joining normalised topics back into a path string

`Array.prototype.join('/')` renders every element with the JS `String`
conversion: strings stay as they are, numbers print in decimal, `NaN`
prints as `"NaN"`. -/

def renderPart : TopicPart → List Char
  | .str s => s
  | .num (some n) => (toString n).data
  | .num none => ['N', 'a', 'N']

def joinTopic (ps : List TopicPart) : List Char :=
  List.intercalate ['/'] (ps.map renderPart)

/-- `normaliseTopic(stringToParts(P).join('/'))`: the normalisation of a
path string as written in the spec's idempotence property. -/
def normalisePath (P : String) : List TopicPart :=
  normaliseTopicc (List.intercalate ['/'] (stringToPartsc P.data))

/-! ## General JS numbers

Finite JS numbers are modelled as unnormalised fractions (an integer
numerator over a positive natural denominator); every operation below is
structurally recursive so that concrete runs reduce inside the kernel.
Two fractions denote the same JS number when they cross-multiply
equally; the embedding only ever compares fractions produced by the very
same computation, or against integral literals produced in denominator-1
form, so structural equality is used. -/

structure Frac where
  num : Int
  den : Nat
deriving DecidableEq, Repr

def Frac.ofInt (n : Int) : Frac := ⟨n, 1⟩

def Frac.ofNat (n : Nat) : Frac := ⟨(n : Int), 1⟩

def Frac.add (a b : Frac) : Frac :=
  ⟨a.num * (b.den : Int) + b.num * (a.den : Int), a.den * b.den⟩

def Frac.sub (a b : Frac) : Frac :=
  ⟨a.num * (b.den : Int) - b.num * (a.den : Int), a.den * b.den⟩

def Frac.mul (a b : Frac) : Frac := ⟨a.num * b.num, a.den * b.den⟩

def Frac.neg (a : Frac) : Frac := ⟨-a.num, a.den⟩

/-- Division of fractions (the source only ever divides by positive
constants). -/
def Frac.div (a b : Frac) : Frac :=
  if b.num < 0 then ⟨-(a.num * (b.den : Int)), a.den * b.num.natAbs⟩
  else ⟨a.num * (b.den : Int), a.den * b.num.natAbs⟩

/-- `a <= b` as values. -/
def Frac.le (a b : Frac) : Bool := a.num * (b.den : Int) ≤ b.num * (a.den : Int)

/-- `10^e` for a possibly negative exponent. -/
def Frac.pow10 (e : Int) : Frac :=
  if 0 ≤ e then ⟨(10 : Int) ^ e.toNat, 1⟩ else ⟨1, 10 ^ e.natAbs⟩

/-- JS `Math.round` of a finite value: half rounds toward positive
infinity, i.e. the floor of `a + 1/2`. -/
def Frac.round (a : Frac) : Int := Int.fdiv (2 * a.num + (a.den : Int)) (2 * (a.den : Int))

/-- A JS number as produced by `Number(...)` and arithmetic on it:
`NaN`, the two infinities, or a finite value. -/
inductive JsNum where
  | nan
  | posInf
  | negInf
  | rat (q : Frac)
deriving DecidableEq, Repr

/-- Numeric value of a digit string (no sign, no dot). -/
def natOfDigits (ds : List Char) : Nat :=
  ds.foldl (fun acc c => 10 * acc + (c.toNat - 48)) 0

/-- A JS decimal literal `digits [. digits] [e[sign]digits]`, requiring
the whole string to be consumed and at least one digit before the
exponent. -/
def decimalLit (cs : List Char) : Option Frac :=
  let ip := cs.takeWhile isDigitChar
  let r1 := cs.dropWhile isDigitChar
  let (fp, r2) : List Char × List Char :=
    match r1 with
    | '.' :: r => (r.takeWhile isDigitChar, r.dropWhile isDigitChar)
    | _ => ([], r1)
  if ip = [] && fp = [] then none
  else
    let base : Frac := Frac.add (Frac.ofNat (natOfDigits ip))
      ⟨(natOfDigits fp : Int), 10 ^ fp.length⟩
    match r2 with
    | [] => some base
    | e :: r3 =>
      if e = 'e' || e = 'E' then
        let (esgn, r4) : Int × List Char :=
          match r3 with
          | '-' :: r => (-1, r)
          | '+' :: r => (1, r)
          | r => (1, r)
        if r4 ≠ [] && r4.all isDigitChar then
          some (Frac.mul base (Frac.pow10 (esgn * (natOfDigits r4 : Int))))
        else none
      else none

/-- Value of a full hex-digit string, `NaN` if empty or containing a
non-hex character (JS `Number("0x...")`). -/
def hexNum (ds : List Char) : JsNum :=
  if ds ≠ [] && ds.all (fun c => (digitValueJs 16 c).isSome) then
    .rat (Frac.ofNat (ds.foldl (fun acc c => 16 * acc + ((digitValueJs 16 c).getD 0)) 0))
  else .nan

/-- JS `Number(str)`: trim, empty string is 0, `0x` hex form, optional
sign followed by `Infinity` or a decimal literal; anything else `NaN`. -/
def numberJsc (cs : List Char) : JsNum :=
  let t := trimJs cs
  if t = [] then .rat (Frac.ofNat 0)
  else
    match t with
    | '0' :: 'x' :: ds => hexNum ds
    | '0' :: 'X' :: ds => hexNum ds
    | _ =>
      let (isNeg, body) : Bool × List Char :=
        match t with
        | '-' :: r => (true, r)
        | '+' :: r => (false, r)
        | r => (false, r)
      if body = ['I', 'n', 'f', 'i', 'n', 'i', 't', 'y'] then
        if isNeg then .negInf else .posInf
      else
        match decimalLit body with
        | some q => .rat (if isNeg then Frac.neg q else q)
        | none => .nan

def numberJs (s : String) : JsNum := numberJsc s.data

/-- `Math.round` lifted to JS numbers (`NaN` and infinities pass
through). -/
def roundJs : JsNum → JsNum
  | .rat q => .rat (Frac.ofInt (Frac.round q))
  | v => v

/-- `parseUnitAddress` (rfxcom.js:158): 0 for `undefined` or any token
matching `/all|group|\+/i`, else `Math.round(Number(str))`. -/
def parseUnitAddressc (str : Option (List Char)) : JsNum :=
  match str with
  | none => .rat (Frac.ofNat 0)
  | some s =>
    if containsCI ['a', 'l', 'l'] s || containsCI ['g', 'r', 'o', 'u', 'p'] s
        || s.contains '+' then
      .rat (Frac.ofNat 0)
    else roundJs (numberJsc s)

def parseUnitAddress (str : Option String) : JsNum :=
  parseUnitAddressc (str.map String.data)

/-! ## Dimming-level resolution (`parseDimLevel`, rfxcom.js:1461) -/

def hasDigit (cs : List Char) : Bool := cs.any isDigitChar

/-- `/dim.*\+/i.test(s)`: an occurrence of `dim` with a `+` somewhere
after it. -/
def dimThenPlus : List Char → Bool
  | [] => false
  | c :: cs =>
    (headMatch ['d', 'i', 'm'] (lowerJs (c :: cs)) && ((c :: cs).drop 3).contains '+')
      || dimThenPlus cs

/-- The case-insensitive regex test for `bright` followed somewhere
later by a minus sign. -/
def brightThenMinus : List Char → Bool
  | [] => false
  | c :: cs =>
    (headMatch ['b', 'r', 'i', 'g', 'h', 't'] (lowerJs (c :: cs))
        && ((c :: cs).drop 6).contains '-')
      || brightThenMinus cs

/-- `/[0-9] *%/.test(s)`: a digit followed (after optional spaces) by a
percent sign. -/
def pctAfterDigit : List Char → Bool
  | [] => false
  | c :: cs =>
    (isDigitChar c &&
      (match cs.dropWhile (fun x => x = ' ') with
       | '%' :: _ => true
       | _ => false))
      || pctAfterDigit cs

/-- `parseFloat` of the first match of `/[0-9]+(\.[0-9]*)?/` in `s`:
the first maximal digit run, with an optional fraction part. `none` when
the string holds no digit. -/
def extractNumber (cs : List Char) : Option Frac :=
  match cs.dropWhile (fun c => !isDigitChar c) with
  | [] => none
  | ds =>
    let ip := ds.takeWhile isDigitChar
    let rest := ds.dropWhile isDigitChar
    let fp : List Char :=
      match rest with
      | '.' :: r => r.takeWhile isDigitChar
      | _ => []
    some (Frac.add (Frac.ofNat (natOfDigits ip)) ⟨(natOfDigits fp : Int), 10 ^ fp.length⟩)

/-- Result of `parseDimLevel`: a relative direction, `NaN`, or an
absolute integer level. -/
inductive DimLevel where
  | plus
  | minus
  | nan
  | level (n : Int)
deriving DecidableEq, Repr

/-- JS `Math.min(1, v)`: the smaller value, `NaN` propagating. -/
def jsMin1 : JsNum → JsNum
  | .nan => .nan
  | .posInf => .rat (Frac.ofNat 1)
  | .negInf => .negInf
  | .rat q => if Frac.le q (Frac.ofNat 1) then .rat q else .rat (Frac.ofNat 1)

/-- JS `Math.max(0, v)`: the larger value, `NaN` propagating. -/
def jsMax0 : JsNum → JsNum
  | .nan => .nan
  | .posInf => .posInf
  | .negInf => .rat (Frac.ofNat 0)
  | .rat q => if Frac.le (Frac.ofNat 0) q then .rat q else .rat (Frac.ofNat 0)

/-- `Math.max(0, Math.min(1, v))` on a JS number. -/
def jsClamp01 (v : JsNum) : JsNum := jsMax0 (jsMin1 v)

/-- Final lines of `parseDimLevel` (rfxcom.js:1501): clamp the value to
[0,1] and map it onto the integer level range by
`Math.round(levelRange[0] + value*(levelRange[1] - levelRange[0]))`;
any `NaN` (including the one produced by an empty or too-short range)
stays `NaN`. -/
def clampToRange (v : JsNum) (range : List Int) : DimLevel :=
  match range, jsClamp01 v with
  | lo :: hi :: _, .rat q =>
    .level (Frac.round (Frac.add (Frac.ofInt lo)
      (Frac.mul q (Frac.sub (Frac.ofInt hi) (Frac.ofInt lo)))))
  | _, _ => .nan

/-- `v/100` on a JS number. -/
def jsDiv100 : JsNum → JsNum
  | .rat q => .rat (Frac.div q (Frac.ofNat 100))
  | v => v

/-- `v >= 0.5` on a JS number (false for `NaN`). -/
def jsGeHalf : JsNum → Bool
  | .rat q => Frac.le ⟨1, 2⟩ q
  | .posInf => true
  | _ => false

/-- `parseDimLevel` (rfxcom.js:1461), for string payloads.  The
`alexaCommand` argument is `some cmd` when `typeof alexaCommand ===
"string"`.  Returns `plus`/`minus` for the relative commands, an integer
level, or `NaN`. -/
def parseDimLevel (payload : String) (alexaCommand : Option String) (levelRange : List Int) :
    DimLevel :=
  let p := payload.data
  match alexaCommand with
  | some cmd =>
    if cmd = "SetPercentageRequest" then
      let value := jsDiv100 (numberJs payload)
      if levelRange = [] then
        if jsGeHalf value then .plus else .minus
      else clampToRange value levelRange
    else if cmd = "IncrementPercentageRequest" then .plus
    else if cmd = "DecrementPercentageRequest" then .minus
    else clampToRange .nan levelRange
  | none =>
    let branch1 : Option DimLevel :=
      if levelRange = [] || !hasDigit p then
        if dimThenPlus p then some .plus
        else if containsCI ['d', 'i', 'm'] p then some .minus
        else if brightThenMinus p then some .minus
        else if containsCI ['b', 'r', 'i', 'g', 'h', 't'] p then some .plus
        else none
      else none
    match branch1 with
    | some r => r
    | none =>
      let branch2 : Option DimLevel :=
        if !hasDigit p then
          if p.contains '+' then some .plus
          else if p.contains '-' then some .minus
          else none
        else none
      match branch2 with
      | some r => r
      | none =>
        let value : JsNum :=
          match extractNumber p with
          | some q => .rat q
          | none => .nan
        let value := if pctAfterDigit p then jsDiv100 value else value
        clampToRange value levelRange

/-! ## Transmitter cache (`getRfxcomSubtype`, rfxcom.js:170)

The `rfxcom` device-driver library is an external collaborator; its
per-family protocol tables (`rfxcom[packetType][protocolName]`) are
parameters of the model. -/

/-- A transmitter object: the packet-type family it was built from, the
subtype it is bound to, and the options passed at construction. -/
structure Transmitter where
  packetType : String
  subtype : Int
  options : Option String
deriving DecidableEq, Repr

/-- A candidate packet-type family: its name and its protocol table
mapping protocol names to subtype numbers. -/
structure TxFamily where
  name : String
  table : List (String × Int)
deriving DecidableEq, Repr

/-- JS object property lookup on an association list (newest binding
first). -/
def alookup (k : String) : List (String × α) → Option α
  | [] => none
  | (k2, v) :: rest => if k = k2 then some v else alookup k rest

/-- Store a binding in the per-connection transmitter cache, replacing
any previous binding for the same protocol name. -/
def setCache (k : String) (v : Transmitter) (c : List (String × Transmitter)) :
    List (String × Transmitter) :=
  (k, v) :: c.filter (fun p => p.1 ≠ k)

/-- One `forEach` step of `getRfxcomSubtype`: at a family whose table
contains the protocol name, overwrite both the subtype accumulator and
the cached transmitter. -/
def cacheStep (protocolName : String) (options : Option String)
    (acc : Int × List (String × Transmitter)) (fam : TxFamily) :
    Int × List (String × Transmitter) :=
  match alookup protocolName fam.table with
  | some st => (st, setCache protocolName ⟨fam.name, st, options⟩ acc.2)
  | none => acc

/-- `getRfxcomSubtype` (rfxcom.js:170).  If `protocolName` is cached,
return the cached subtype unchanged; otherwise iterate (`forEach`) over
the whole candidate list, and at every family whose table contains the
name, overwrite both the subtype and the cached transmitter. -/
def getRfxcomSubtype (cache : List (String × Transmitter)) (protocolName : String)
    (transmitterPacketTypes : List TxFamily) (options : Option String) :
    Int × List (String × Transmitter) :=
  match alookup protocolName cache with
  | some t => (t.subtype, cache)
  | none => transmitterPacketTypes.foldl (cacheStep protocolName options) (-1, cache)

/-- The last family of the list whose table contains the protocol name,
together with its subtype: this is the family whose transmitter survives
the `forEach` loop. -/
def lastMatch (pn : String) : List TxFamily → Option (String × Int)
  | [] => none
  | f :: fs =>
    match lastMatch pn fs with
    | some m => some m
    | none => (alookup pn f.table).map (fun st => (f.name, st))

/-! ## Retransmission scheduler (rfxcom.js:1676, 755, 264)

Platform timers are modelled by an id counter; `active` holds the
pending timers as (id, captured topic key) pairs, and `map` is the
node's `retransmissions` object. -/

structure RetransmitState where
  map : List (String × Nat)
  active : List (Nat × String)
  next : Nat
deriving DecidableEq, Repr

/-- `node.clearRetransmission(timer)`: cancel one pending timer. -/
def clearRetransmission (id : Nat) (act : List (Nat × String)) : List (Nat × String) :=
  act.filter (fun p => p.1 ≠ id)

/-- The arm transition (rfxcom.js:1676): after a successful send, cancel
the timer recorded under the topic key, if any, then store a fresh
timer for the key. -/
def armRetransmission (key : String) (s : RetransmitState) : RetransmitState :=
  let act :=
    match alookup key s.map with
    | some id => clearRetransmission id s.active
    | none => s.active
  { map := (key, s.next) :: s.map.filter (fun p => p.1 ≠ key)
    active := (s.next, key) :: act
    next := s.next + 1 }

/-- Expiry of a pending one-shot timer (rfxcom.js:1669): the platform
removes the timeout, and the captured closure deletes the map entry for
its key (`node.mustDelete`).  A repeating timer stays pending and
deletes nothing.  Only a pending (id, key) pair can fire. -/
def fireRetransmission (mustDelete : Bool) (id : Nat) (key : String) (s : RetransmitState) :
    RetransmitState :=
  if (id, key) ∈ s.active then
    if mustDelete then
      { map := s.map.filter (fun p => p.1 ≠ key)
        active := s.active.filter (fun p => p.1 ≠ id)
        next := s.next }
    else s
  else s

/-- States reachable from a freshly constructed node by arming and
firing retransmissions. -/
inductive RetransmitReachable (mustDelete : Bool) : RetransmitState → Prop where
  | init : RetransmitReachable mustDelete ⟨[], [], 0⟩
  | arm (key : String) {s : RetransmitState} :
      RetransmitReachable mustDelete s →
      RetransmitReachable mustDelete (armRetransmission key s)
  | fire (id : Nat) (key : String) {s : RetransmitState} :
      RetransmitReachable mustDelete s →
      RetransmitReachable mustDelete (fireRetransmission mustDelete id key s)

/-- The pending retransmission timers for one topic key. -/
def pendingFor (s : RetransmitState) (k : String) : Nat :=
  (s.active.filter (fun p => p.2 = k)).length

/-- Structural invariant: every pending timer is the one recorded in the
map for its key, pending timer ids are distinct, and ids are below the
counter. -/
def RetransmitInv (s : RetransmitState) : Prop :=
  (∀ p ∈ s.active, alookup p.2 s.map = some p.1) ∧
  (s.active.map Prod.fst).Nodup ∧
  (∀ p ∈ s.active, p.1 < s.next)

/-! ## Detector heartbeat teardown (rfxcom.js:1338)

`node.heartbeats` maps a topic to an entry object holding the last
status and the interval timer.  The close handler passes the whole entry
object — not its `interval` field — to `clearInterval`; Node's
`clearInterval` silently ignores an argument that is not a timer. -/

structure HeartbeatEntry where
  lastStatus : Int
  interval : Nat
deriving DecidableEq, Repr

/-- An argument passed to `clearInterval`: either a real timer handle or
some other object. -/
inductive JsTimerArg where
  | handle (id : Nat)
  | obj (e : HeartbeatEntry)
deriving DecidableEq, Repr

/-- Node.js `clearInterval`: cancels the timer when given a timer
handle, does nothing when given any other value. -/
def clearIntervalJs : JsTimerArg → List Nat → List Nat
  | .handle id, act => act.filter (fun t => t ≠ id)
  | .obj _, act => act

/-- The detector node's close handler loop (rfxcom.js:1341): for every
heartbeat key, call `clearInterval(node.heartbeats[heartbeat])` — i.e.
pass the entry object itself. -/
def detectorCloseHeartbeats (heartbeats : List (String × HeartbeatEntry)) (act : List Nat) :
    List Nat :=
  heartbeats.foldl (fun a kv => clearIntervalJs (.obj kv.2) a) act

/-- `purgeTimers` (rfxcom.js:265): for every retransmission key, cancel
the stored timer handle and delete the entry. -/
def purgeTimers (retransmissions : List (String × Nat)) (act : List Nat) :
    List (String × Nat) × List Nat :=
  (([] : List (String × Nat)),
    retransmissions.foldl (fun a kv => a.filter (fun t => t ≠ kv.2)) act)

/-! ## Node constructors and the missing-port configuration error -/

/-- Externally observable constructor actions. -/
inductive NodeEffect where
  | errorReport (msg : String)
  | poolGet
  | addListener (evt : String)
  | thrownTypeError
deriving DecidableEq, Repr

/-- The port config node data used by `RfxBlindsOutNode`. -/
structure PortConfig where
  rfyVenetianMode : Option String
deriving DecidableEq, Repr

/-- `RfxLightsInNode` (rfxcom.js:296): with a resolvable port reference
it acquires the pooled connection and registers its seven listeners;
without one it reports the configuration error and does nothing else. -/
def rfxLightsInConstruct (portRef : Option PortConfig) : List NodeEffect :=
  match portRef with
  | some _ =>
    .poolGet :: (["lighting1", "lighting2", "lighting5", "lighting6",
                  "security1", "hunterfan", "fan"].map .addListener)
  | none => [.errorReport "missing config: rfxtrx-port"]

/-- `RfxBlindsOutNode` (rfxcom.js:2500): line 2510 reads
`node.rfxtrxPort.rfyVenetianMode` before the port reference is checked,
so a missing reference throws a TypeError out of the constructor and the
`node.error` branch at line 2652 never runs. -/
def rfxBlindsOutConstruct (portRef : Option PortConfig) : List NodeEffect :=
  match portRef with
  | some _ => [.poolGet, .addListener "input"]
  | none => [.thrownTypeError]

/-- `RfxDetectorsNode` (rfxcom.js:1334): the port-reference check has no
else branch, so a missing reference produces no report at all. -/
def rfxDetectorsConstruct (portRef : Option PortConfig) : List NodeEffect :=
  match portRef with
  | some _ => [.poolGet, .addListener "security1"]
  | none => []

/-! ## Message-input handler exception safety (rfxcom.js:1593, 2587)

Collaborator calls (transmitter construction and transmitter methods)
may throw arbitrary JS values; the models below quantify over those
behaviours and track which warnings are emitted and whether an exception
escapes the handler. -/

/-- A thrown JS value: an Error carrying a string message, or any value
without a usable string `message` property. -/
inductive JsThrown where
  | err (msg : String)
  | bare
deriving DecidableEq, Repr

/-- The net effect of one handler invocation: warnings emitted, plus the
exception that escaped the handler, if any. -/
structure JsOutcome where
  warns : List String
  thrown : Option JsThrown
deriving DecidableEq, Repr

def wordAlpha (c : Char) : Bool := c = '_' || isAsciiLetter c

def wordChar (c : Char) : Bool := c = '_' || isAsciiLetter c || isDigitChar c

/-- First match of the regex `[^_a-zA-Z]([_0-9a-zA-Z]*) is not a
function`, returning the captured group. -/
def extractFnName : List Char → Option (List Char)
  | [] => none
  | c :: cs =>
    if !wordAlpha c
        && headMatch " is not a function".data (cs.dropWhile wordChar) then
      some (cs.takeWhile wordChar)
    else extractFnName cs

/-- The shared catch block of the output-node handlers (rfxcom.js:1681,
2636): a message containing `is not a function` is reported as an
unsupported generated command, anything else as a generic warning.  Two
paths rethrow: a thrown value without a string `message` (the
`.indexOf` access throws), and a message containing the phrase but not
matching the capture regex (`.match(...)` is `null`, and `null[1]`
throws). -/
def notSupportedCatch (e : JsThrown) : JsOutcome :=
  match e with
  | .bare => ⟨[], some (.err "TypeError: Cannot read properties of undefined")⟩
  | .err m =>
    if hasSub "is not a function".data m.data then
      match extractFnName m.data with
      | some nm => ⟨["command not supported by device: " ++ String.mk nm], none⟩
      | none => ⟨[], some (.err "TypeError: Cannot read properties of null")⟩
    else ⟨["generic: " ++ m], none⟩

/-- Wrap a handler body in the outermost catch, which downgrades any
exception to a serial-port warning (rfxcom.js:1691, 2646). -/
def runCatchAll (body : Except JsThrown (List String)) : JsOutcome :=
  match body with
  | .ok ws => ⟨ws, none⟩
  | .error _ => ⟨["serial port does not exist"], none⟩

/-- The shared topic resolution at the top of every output-node input
handler: the node's (always defined) configured topic parts when the
topic source is `node`, else the parts of the message topic. -/
def resolvePath (topicSource : String) (nodeTopic : List (List Char))
    (msgTopic : Option String) : List (List Char) :=
  if topicSource = "node" then nodeTopic
  else match msgTopic with
    | some t => stringToPartsc t.data
    | none => []

/-- The `rfx-lights-out` input handler (rfxcom.js:1593).  `subtypeBeh`
is the outcome of `getRfxcomSubtype` (the transmitter constructor may
throw), `rangeBeh` the outcome of the level-range computation (the
`isSubtype` probes), and `cmdBeh` the outcome of `parseCommand` plus the
address concatenation — `none` meaning a normal return. -/
def runLightsOutHandler (topicSource : String) (nodeTopic : List (List Char))
    (msgTopic : Option String) (subtypeBeh : Except JsThrown Int)
    (rangeBeh : Except JsThrown (List Int)) (cmdBeh : Option JsThrown) : JsOutcome :=
  match resolvePath topicSource nodeTopic msgTopic with
  | [] => ⟨["rfx-lights-out: missing topic"], none⟩
  | p0 :: _ =>
    let pn := normProto p0
    runCatchAll (do
      let st ← subtypeBeh
      if st < 0 then
        pure ["device type not supported: " ++ String.mk pn]
      else do
        let _range ← rangeBeh
        match cmdBeh with
        | none => pure []
        | some e =>
          match notSupportedCatch e with
          | ⟨ws, none⟩ => pure ws
          | ⟨_, some e2⟩ => throw e2)

/-- The `rfx-blinds-out` input handler (rfxcom.js:2587), with its
pre-try unit-address resolution (all of it total string and number
work). -/
def runBlindsOutHandler (topicSource : String) (nodeTopic : List (List Char))
    (msgTopic : Option String) (subtypeBeh : Except JsThrown Int)
    (cmdBeh : Option JsThrown) : JsOutcome :=
  match resolvePath topicSource nodeTopic msgTopic with
  | [] => ⟨["rfx-blinds-out: missing topic"], none⟩
  | p0 :: rest =>
    let pn := normProto p0
    let singleChannel :=
      pn = "BLINDS_T2".data || pn = "BLINDS_T4".data
        || pn = "BLINDS_T5".data || pn = "BLINDS_T10".data
    let preWarns : List String :=
      if singleChannel then
        if rest.length + 1 > 2 then ["rfx-blinds-out: ignoring unit code"] else []
      else []
    if !singleChannel && rest.length + 1 < 3 then
      ⟨["rfx-blinds-out: missing unit code"], none⟩
    else
      let _unitAddress : JsNum :=
        if singleChannel then .rat (Frac.ofNat 0)
        else parseUnitAddressc (rest.drop 1 |>.head?)
      let out := runCatchAll (do
        let st ← subtypeBeh
        if st < 0 then
          pure ["device type not supported: " ++ String.mk pn]
        else
          match cmdBeh with
          | none => pure []
          | some e =>
            match notSupportedCatch e with
            | ⟨ws, none⟩ => pure ws
            | ⟨_, some e2⟩ => throw e2)
      ⟨preWarns ++ out.warns, out.thrown⟩

/-- A JS property value that may be `undefined`, `null`, or present. -/
inductive JsField where
  | undef
  | nullv
  | val (n : Nat)
deriving DecidableEq, Repr

/-- The `msg.raw` field of an input message: `undefined`, `null`, or an
object with `data` and `pulseWidth` properties. -/
inductive JsRaw where
  | undef
  | nullv
  | obj (data : JsField) (pulseWidth : JsField)
deriving DecidableEq, Repr

/-- `node.warn(exception.message)` (rfxcom.js:762): an Error's message
string, or the rendering of `undefined` for a thrown non-Error value;
this warning path itself never throws. -/
def warnOfExc : JsThrown → String
  | .err m => m
  | .bare => "undefined"

/-- The try/catch around `sendData` (rfxcom.js:737-763): any throw from
the device call (and the pure retransmission bookkeeping after it) is
caught and warned. -/
def pt2262Send (sendBeh : Option JsThrown) : JsOutcome :=
  match sendBeh with
  | none => ⟨[], none⟩
  | some e => ⟨[warnOfExc e], none⟩

/-- The `rfx-PT2262-out` input handler (rfxcom.js:704-765).  `topic`
stays `undefined` when neither the node nor the message supplies one.
The device-list filter is abstracted by `dbMatch` (the first matching
entry's `rawData` and `pulseWidth` properties, `none` when no entry
matches); `sendBeh` is the outcome of `sendData`.  The guard at line
726 tests `msg.raw !== undefined` only, so a `null` raw field reaches
`msg.raw.data` — outside any try — and the TypeError escapes. -/
def runPT2262OutHandler (topicSource : String) (nodeTopic : List (List Char))
    (msgTopic : Option String) (payloadDefined : Bool) (raw : JsRaw)
    (dbMatch : Option (JsField × JsField)) (sendBeh : Option JsThrown) : JsOutcome :=
  let topic : Option (List (List Char)) :=
    if topicSource = "node" then some nodeTopic
    else match msgTopic with
      | some t => some (stringToPartsc t.data)
      | none => none
  if topic.isSome && payloadDefined then
    match dbMatch with
    | some (.nullv, _) => ⟨[], none⟩
    | some (_, _) => pt2262Send sendBeh
    | none => ⟨["rfx-PT2262-out: no raw data found"], none⟩
  else
    match raw with
    | .undef => ⟨[], none⟩
    | .nullv => ⟨[], some (.err "TypeError: Cannot read properties of null (reading 'data')")⟩
    | .obj .undef _ => ⟨[], none⟩
    | .obj .nullv _ => ⟨[], none⟩
    | .obj (.val _) _ => pt2262Send sendBeh

/-! # Supporting lemmas -/

theorem headMatch_iff (pat s : List Char) :
    headMatch pat s = true ↔ ∃ r, s = pat ++ r := by
  induction pat generalizing s with
  | nil => simp [headMatch]
  | cons p ps ih =>
    cases s with
    | nil =>
      simp only [headMatch, List.cons_append]
      constructor
      · intro h; cases h
      · rintro ⟨r, h⟩; cases h
    | cons c cs =>
      simp only [headMatch, Bool.and_eq_true, decide_eq_true_eq, ih, List.cons_append,
        List.cons.injEq]
      constructor
      · rintro ⟨rfl, r, rfl⟩; exact ⟨r, rfl, rfl⟩
      · rintro ⟨r, rfl, rfl⟩; exact ⟨rfl, r, rfl⟩

theorem hasSub_iff (pat s : List Char) :
    hasSub pat s = true ↔ ∃ l r, s = l ++ pat ++ r := by
  induction s with
  | nil =>
    simp only [hasSub, headMatch_iff]
    constructor
    · rintro ⟨r, h⟩
      exact ⟨[], r, by simpa using h⟩
    · rintro ⟨l, r, h⟩
      rcases List.append_eq_nil.mp ((List.append_assoc l pat r ▸ h).symm) with ⟨h1, h2⟩
      rcases List.append_eq_nil.mp h2 with ⟨h3, h4⟩
      exact ⟨[], by simp [h3]⟩
  | cons c cs ih =>
    simp only [hasSub, Bool.or_eq_true, headMatch_iff, ih]
    constructor
    · rintro (⟨r, h⟩ | ⟨l, r, rfl⟩)
      · exact ⟨[], r, by simpa using h⟩
      · exact ⟨c :: l, r, by simp⟩
    · rintro ⟨l, r, h⟩
      cases l with
      | nil => exact Or.inl ⟨r, by simpa using h⟩
      | cons x xs =>
        rcases List.cons.injEq .. ▸ h with ⟨rfl, h2⟩
        exact Or.inr ⟨xs, r, by simpa using h2⟩

theorem checkTopic_iff (parts pattern : List TopicPart) :
    checkTopic parts pattern = true ↔
      ∀ i < pattern.length,
        ∃ c p, parts[i]? = some c ∧ pattern[i]? = some p ∧ jsEqPart c p = true := by
  induction pattern generalizing parts with
  | nil => simp [checkTopic]
  | cons p ps ih =>
    cases parts with
    | nil =>
      simp only [checkTopic, List.length_cons]
      constructor
      · intro h; cases h
      · intro h
        rcases h 0 (Nat.zero_lt_succ _) with ⟨c, _, hc, _⟩
        simp at hc
    | cons c cs =>
      simp only [checkTopic, Bool.and_eq_true, ih, List.length_cons]
      constructor
      · rintro ⟨h1, h2⟩ i hi
        cases i with
        | zero => exact ⟨c, p, by simp, by simp, h1⟩
        | succ j =>
          rcases h2 j (Nat.lt_of_succ_lt_succ hi) with ⟨c2, p2, hc2, hp2, he⟩
          exact ⟨c2, p2, by simpa using hc2, by simpa using hp2, he⟩
      · intro h
        refine ⟨?_, ?_⟩
        · rcases h 0 (Nat.zero_lt_succ _) with ⟨c2, p2, hc2, hp2, he⟩
          simp only [List.getElem?_cons_zero, Option.some.injEq] at hc2 hp2
          rw [← hc2, ← hp2] at he
          exact he
        · intro j hj
          rcases h (j + 1) (Nat.succ_lt_succ hj) with ⟨c2, p2, hc2, hp2, he⟩
          exact ⟨c2, p2, by simpa using hc2, by simpa using hp2, he⟩

theorem setCache_override (k : String) (v1 v2 : Transmitter) (c : List (String × Transmitter)) :
    setCache k v2 (setCache k v1 c) = setCache k v2 c := by
  simp only [setCache, List.filter_cons]
  simp [List.filter_filter]

theorem getRfxcomSubtype_fold (pn : String) (opts : Option String) (fams : List TxFamily) :
    ∀ acc : Int × List (String × Transmitter),
      fams.foldl (cacheStep pn opts) acc =
        match lastMatch pn fams with
        | none => acc
        | some m => (m.2, setCache pn ⟨m.1, m.2, opts⟩ acc.2) := by
  induction fams with
  | nil => intro acc; rfl
  | cons f fs ih =>
    intro acc
    rw [List.foldl_cons, ih]
    cases h1 : alookup pn f.table with
    | none =>
      cases h2 : lastMatch pn fs <;>
        simp [cacheStep, lastMatch, h1, h2]
    | some st =>
      cases h2 : lastMatch pn fs <;>
        simp [cacheStep, lastMatch, h1, h2, setCache_override]

theorem alookup_filter_ne {α : Type} (k key : String) (h : k ≠ key) (l : List (String × α)) :
    alookup k (l.filter (fun p => p.1 ≠ key)) = alookup k l := by
  induction l with
  | nil => rfl
  | cons kv rest ih =>
    obtain ⟨k2, v⟩ := kv
    by_cases h2 : k2 = key
    · subst h2
      rw [List.filter_cons_of_neg (by simp)]
      rw [ih]
      simp [alookup, h]
    · rw [List.filter_cons_of_pos (by simp [h2])]
      by_cases h3 : k = k2
      · simp [alookup, h3]
      · simp only [alookup, if_neg h3]
        exact ih

theorem retransmitInv_init : RetransmitInv ⟨[], [], 0⟩ := by
  refine ⟨?_, ?_, ?_⟩ <;> simp [RetransmitInv]

theorem armRetransmission_eq (key : String) (s : RetransmitState) :
    armRetransmission key s =
      ⟨(key, s.next) :: s.map.filter (fun p => p.1 ≠ key),
        (s.next, key) ::
          (match alookup key s.map with
           | some id => clearRetransmission id s.active
           | none => s.active),
        s.next + 1⟩ := rfl

theorem retransmitInv_arm (key : String) (s : RetransmitState) (h : RetransmitInv s) :
    RetransmitInv (armRetransmission key s) := by
  obtain ⟨hLook, hNodup, hBound⟩ := h
  have main : ∀ act : List (Nat × String),
      (∀ p ∈ act, p ∈ s.active) → (∀ p ∈ act, p.2 ≠ key) →
      (act.map Prod.fst).Sublist (s.active.map Prod.fst) →
      RetransmitInv ⟨(key, s.next) :: s.map.filter (fun p => p.1 ≠ key),
        (s.next, key) :: act, s.next + 1⟩ := by
    intro act hsub hkey hsl
    refine ⟨?_, ?_, ?_⟩
    · intro p hp
      rcases List.mem_cons.mp hp with rfl | hp2
      · simp [alookup]
      · have hne : p.2 ≠ key := hkey p hp2
        simp only [alookup, if_neg hne]
        rw [alookup_filter_ne _ _ hne]
        exact hLook p (hsub p hp2)
    · simp only [List.map_cons, List.nodup_cons]
      refine ⟨?_, hNodup.sublist hsl⟩
      intro hmem
      rcases List.mem_map.mp hmem with ⟨p, hp, hfst⟩
      have := hBound p (hsub p hp)
      omega
    · intro p hp
      rcases List.mem_cons.mp hp with rfl | hp2
      · simp
      · have := hBound p (hsub p hp2)
        simp only []
        omega
  rw [armRetransmission_eq]
  cases halo : alookup key s.map with
  | none =>
    refine main s.active (fun p hp => hp) ?_ (List.Sublist.refl _)
    intro p hp hk
    have := hLook p hp
    rw [hk, halo] at this
    cases this
  | some id =>
    refine main (clearRetransmission id s.active) (fun p hp => List.mem_of_mem_filter hp) ?_
      ((List.filter_sublist _).map Prod.fst)
    intro p hp hk
    have hmem := List.mem_of_mem_filter hp
    have hlk := hLook p hmem
    rw [hk, halo] at hlk
    have hid : p.1 = id := by
      injection hlk with h3
      omega
    have hfil := List.of_mem_filter hp
    simp [hid] at hfil

theorem fireRetransmission_del_eq (id : Nat) (key : String) (s : RetransmitState)
    (hmem : (id, key) ∈ s.active) :
    fireRetransmission true id key s =
      ⟨s.map.filter (fun p => p.1 ≠ key), s.active.filter (fun p => p.1 ≠ id), s.next⟩ := by
  unfold fireRetransmission
  rw [if_pos hmem, if_pos rfl]

theorem retransmitInv_fire (md : Bool) (id : Nat) (key : String) (s : RetransmitState)
    (h : RetransmitInv s) : RetransmitInv (fireRetransmission md id key s) := by
  obtain ⟨hLook, hNodup, hBound⟩ := h
  by_cases hmem : (id, key) ∈ s.active
  · cases md with
    | false =>
      unfold fireRetransmission
      rw [if_pos hmem]
      exact ⟨hLook, hNodup, hBound⟩
    | true =>
      rw [fireRetransmission_del_eq id key s hmem]
      refine ⟨?_, ?_, ?_⟩
      · intro p hp
        have hpa := List.mem_of_mem_filter hp
        have hpne : p.1 ≠ id := by
          have := List.of_mem_filter hp
          simpa using this
        have hkey : p.2 ≠ key := by
          intro hk
          have h1 := hLook p hpa
          have h2 := hLook (id, key) hmem
          rw [hk] at h1
          rw [h1] at h2
          injection h2 with h3
          exact hpne h3
        simp only []
        rw [alookup_filter_ne _ _ hkey]
        exact hLook p hpa
      · exact hNodup.sublist ((List.filter_sublist _).map Prod.fst)
      · intro p hp
        exact hBound p (List.mem_of_mem_filter hp)
  · unfold fireRetransmission
    rw [if_neg hmem]
    exact ⟨hLook, hNodup, hBound⟩

theorem retransmitInv_reachable (md : Bool) (s : RetransmitState)
    (h : RetransmitReachable md s) : RetransmitInv s := by
  induction h with
  | init => exact retransmitInv_init
  | arm key h2 ih => exact retransmitInv_arm _ _ ih
  | fire id key h2 ih => exact retransmitInv_fire _ _ _ _ ih

theorem pending_le_one_aux (m : List (String × Nat)) (k : String) :
    ∀ l : List (Nat × String),
      (∀ p ∈ l, alookup p.2 m = some p.1) → (l.map Prod.fst).Nodup →
      (l.filter (fun p => p.2 = k)).length ≤ 1 := by
  intro l
  induction l with
  | nil => intro _ _; simp
  | cons p ps ih =>
    intro hLook hNodup
    simp only [List.map_cons, List.nodup_cons] at hNodup
    by_cases hk : p.2 = k
    · have hrest : ps.filter (fun q => q.2 = k) = [] := by
        rw [List.filter_eq_nil_iff]
        intro q hq hqk
        have h1 := hLook p (List.mem_cons_self _ _)
        have h2 := hLook q (List.mem_cons_of_mem _ hq)
        rw [hk] at h1
        rw [show q.2 = k from by simpa using hqk] at h2
        rw [h1] at h2
        injection h2 with h3
        exact hNodup.1 (List.mem_map.mpr ⟨q, hq, h3.symm⟩)
      simp [List.filter_cons, hk, hrest]
    · simp only [List.filter_cons, hk, decide_False, if_false]
      exact ih (fun q hq => hLook q (List.mem_cons_of_mem _ hq)) hNodup.2

theorem runCatchAll_thrown (body : Except JsThrown (List String)) :
    (runCatchAll body).thrown = none := by
  cases body <;> rfl

theorem asciiUpper_cases (c : Char) :
    asciiUpper c = c ∨ asciiUpper c ∈ ['A', 'B', 'C', 'D', 'E', 'F', 'G', 'H', 'I', 'J', 'K',
      'L', 'M', 'N', 'O', 'P', 'Q', 'R', 'S', 'T', 'U', 'V', 'W', 'X', 'Y', 'Z'] := by
  unfold asciiUpper
  split <;> first | (right; decide) | (left; rfl)

theorem asciiUpper_idem (c : Char) : asciiUpper (asciiUpper c) = asciiUpper c := by
  rcases asciiUpper_cases c with h | h
  · rw [h, h]
  · generalize hu : asciiUpper c = u at h ⊢
    fin_cases h <;> decide

theorem asciiUpper_not_space (c : Char) (h : isSpaceJs c = false) :
    isSpaceJs (asciiUpper c) = false := by
  rcases asciiUpper_cases c with h2 | h2
  · rw [h2]; exact h
  · generalize hu : asciiUpper c = u at h2 ⊢
    fin_cases h2 <;> decide

theorem asciiUpper_ne_slash (c : Char) (h : c ≠ '/') : asciiUpper c ≠ '/' := by
  rcases asciiUpper_cases c with h2 | h2
  · rw [h2]; exact h
  · generalize hu : asciiUpper c = u at h2 ⊢
    fin_cases h2 <;> decide

theorem asciiUpper_ne_space (c : Char) (h : c ≠ ' ') : asciiUpper c ≠ ' ' := by
  rcases asciiUpper_cases c with h2 | h2
  · rw [h2]; exact h
  · generalize hu : asciiUpper c = u at h2 ⊢
    fin_cases h2 <;> decide

theorem collapseSpaces_space_true (cs : List Char) :
    collapseSpaces true (' ' :: cs) = collapseSpaces true cs := rfl

theorem collapseSpaces_space_false (cs : List Char) :
    collapseSpaces false (' ' :: cs) = '_' :: collapseSpaces true cs := rfl

theorem collapseSpaces_cons_ne (b : Bool) (c : Char) (cs : List Char) (h : c ≠ ' ') :
    collapseSpaces b (c :: cs) = c :: collapseSpaces false cs := by
  cases b <;> simp [collapseSpaces, h]

theorem collapseSpaces_no_space (b : Bool) (s : List Char) : ' ' ∉ collapseSpaces b s := by
  induction s generalizing b with
  | nil => simp [collapseSpaces]
  | cons c cs ih =>
    by_cases hc : c = ' '
    · subst hc
      cases b with
      | true => rw [collapseSpaces_space_true]; exact ih true
      | false =>
        rw [collapseSpaces_space_false]
        intro hmem
        rcases List.mem_cons.mp hmem with h | h
        · cases h
        · exact ih true h
    · rw [collapseSpaces_cons_ne b c cs hc]
      intro hmem
      rcases List.mem_cons.mp hmem with h | h
      · exact hc h.symm
      · exact ih false h

theorem collapseSpaces_id (s : List Char) (h : ' ' ∉ s) : collapseSpaces false s = s := by
  induction s with
  | nil => rfl
  | cons c cs ih =>
    have hc : c ≠ ' ' := fun hh => h (hh ▸ List.mem_cons_self _ _)
    rw [collapseSpaces_cons_ne false c cs hc]
    rw [ih (fun hh => h (List.mem_cons_of_mem _ hh))]

theorem collapseSpaces_mem (b : Bool) (s : List Char) (c : Char)
    (h : c ∈ collapseSpaces b s) : c = '_' ∨ c ∈ s := by
  induction s generalizing b with
  | nil => simp [collapseSpaces] at h
  | cons x xs ih =>
    by_cases hx : x = ' '
    · subst hx
      cases b with
      | true =>
        rw [collapseSpaces_space_true] at h
        rcases ih true h with h2 | h2
        · exact Or.inl h2
        · exact Or.inr (List.mem_cons_of_mem _ h2)
      | false =>
        rw [collapseSpaces_space_false] at h
        rcases List.mem_cons.mp h with h2 | h2
        · exact Or.inl h2
        · rcases ih true h2 with h3 | h3
          · exact Or.inl h3
          · exact Or.inr (List.mem_cons_of_mem _ h3)
    · rw [collapseSpaces_cons_ne b x xs hx] at h
      rcases List.mem_cons.mp h with h2 | h2
      · exact Or.inr (h2 ▸ List.mem_cons_self _ _)
      · rcases ih false h2 with h3 | h3
        · exact Or.inl h3
        · exact Or.inr (List.mem_cons_of_mem _ h3)

theorem collapseSpaces_false_nil_iff (s : List Char) :
    collapseSpaces false s = [] ↔ s = [] := by
  cases s with
  | nil => simp [collapseSpaces]
  | cons c cs =>
    constructor
    · intro h
      by_cases hc : c = ' '
      · subst hc
        rw [collapseSpaces_space_false] at h
        cases h
      · rw [collapseSpaces_cons_ne false c cs hc] at h
        cases h
    · intro h; cases h

theorem collapseSpaces_head (s : List Char) (c : Char)
    (h : (collapseSpaces false s).head? = some c) : c = '_' ∨ s.head? = some c := by
  cases s with
  | nil => simp [collapseSpaces] at h
  | cons x xs =>
    by_cases hx : x = ' '
    · subst hx
      rw [collapseSpaces_space_false] at h
      simp only [List.head?_cons, Option.some.injEq] at h
      exact Or.inl h.symm
    · rw [collapseSpaces_cons_ne false x xs hx] at h
      simp only [List.head?_cons, Option.some.injEq] at h
      exact Or.inr (by simp [← h])

theorem collapseSpaces_getLast (b : Bool) (s : List Char) (c : Char)
    (h : (collapseSpaces b s).getLast? = some c) : c = '_' ∨ s.getLast? = some c := by
  induction s generalizing b with
  | nil => simp [collapseSpaces] at h
  | cons x xs ih =>
    have hlift : ∀ d : Char, xs.getLast? = some d → (x :: xs).getLast? = some d := by
      intro d hd
      cases xs with
      | nil => simp at hd
      | cons y ys => rw [List.getLast?_cons_cons]; exact hd
    by_cases hx : x = ' '
    · subst hx
      cases b with
      | true =>
        rw [collapseSpaces_space_true] at h
        rcases ih true h with h2 | h2
        · exact Or.inl h2
        · exact Or.inr (hlift _ h2)
      | false =>
        rw [collapseSpaces_space_false] at h
        cases hrest : collapseSpaces true xs with
        | nil =>
          rw [hrest] at h
          simp at h
          exact Or.inl h.symm
        | cons z zs =>
          rw [hrest, List.getLast?_cons_cons, ← hrest] at h
          rcases ih true h with h2 | h2
          · exact Or.inl h2
          · exact Or.inr (hlift _ h2)
    · rw [collapseSpaces_cons_ne b x xs hx] at h
      cases hrest : collapseSpaces false xs with
      | nil =>
        have hxs : xs = [] := (collapseSpaces_false_nil_iff xs).mp hrest
        subst hxs
        rw [hrest] at h
        simp at h
        exact Or.inr (by simp [← h])
      | cons z zs =>
        rw [hrest, List.getLast?_cons_cons, ← hrest] at h
        rcases ih false h with h2 | h2
        · exact Or.inl h2
        · exact Or.inr (hlift _ h2)

theorem dropWhile_head_not (p : Char → Bool) (l : List Char) :
    ∀ c, (l.dropWhile p).head? = some c → p c = false := by
  induction l with
  | nil => intro c h; simp at h
  | cons x xs ih =>
    intro c h
    rw [List.dropWhile_cons] at h
    by_cases hx : p x = true
    · rw [if_pos hx] at h
      exact ih c h
    · rw [if_neg hx] at h
      simp only [List.head?_cons, Option.some.injEq] at h
      rw [← h]
      exact Bool.eq_false_iff.mpr hx

theorem dropWhile_of_head_not (p : Char → Bool) (l : List Char)
    (h : ∀ c, l.head? = some c → p c = false) : l.dropWhile p = l := by
  cases l with
  | nil => rfl
  | cons x xs =>
    rw [List.dropWhile_cons, if_neg]
    simp [h x rfl]

theorem mem_of_mem_dropWhile (p : Char → Bool) (l : List Char) (c : Char)
    (h : c ∈ l.dropWhile p) : c ∈ l := by
  induction l with
  | nil => simp at h
  | cons x xs ih =>
    rw [List.dropWhile_cons] at h
    by_cases hx : p x = true
    · rw [if_pos hx] at h
      exact List.mem_cons_of_mem _ (ih h)
    · rw [if_neg hx] at h
      exact h

theorem dropWhile_getLast (p : Char → Bool) (l : List Char) (hne : l.dropWhile p ≠ []) :
    (l.dropWhile p).getLast? = l.getLast? := by
  induction l with
  | nil => simp at hne
  | cons x xs ih =>
    rw [List.dropWhile_cons] at hne ⊢
    by_cases hx : p x = true
    · rw [if_pos hx] at hne ⊢
      have hxs : xs ≠ [] := by
        intro hh
        subst hh
        simp [List.dropWhile] at hne
      rw [ih hne]
      cases xs with
      | nil => cases hxs rfl
      | cons y ys => rw [List.getLast?_cons_cons]
    · rw [if_neg hx]

theorem trimJs_subset (s : List Char) : ∀ c ∈ trimJs s, c ∈ s := by
  intro c hc
  unfold trimJs at hc
  rw [List.mem_reverse] at hc
  have h1 := mem_of_mem_dropWhile _ _ _ hc
  rw [List.mem_reverse] at h1
  exact mem_of_mem_dropWhile _ _ _ h1

theorem trimJs_head_not_space (s : List Char) :
    ∀ c, (trimJs s).head? = some c → isSpaceJs c = false := by
  intro c h
  unfold trimJs at h
  rw [List.head?_reverse] at h
  have hne2 : List.dropWhile isSpaceJs ((s.dropWhile isSpaceJs).reverse) ≠ [] := by
    intro hh
    rw [hh] at h
    simp at h
  rw [dropWhile_getLast _ _ hne2, List.getLast?_reverse] at h
  exact dropWhile_head_not _ _ c h

theorem trimJs_last_not_space (s : List Char) :
    ∀ c, (trimJs s).getLast? = some c → isSpaceJs c = false := by
  intro c h
  unfold trimJs at h
  rw [List.getLast?_reverse] at h
  exact dropWhile_head_not _ _ c h

theorem trimJs_eq_self (l : List Char)
    (h1 : ∀ c, l.head? = some c → isSpaceJs c = false)
    (h2 : ∀ c, l.getLast? = some c → isSpaceJs c = false) : trimJs l = l := by
  unfold trimJs
  rw [dropWhile_of_head_not _ _ h1]
  rw [dropWhile_of_head_not]
  · exact List.reverse_reverse l
  · intro c hc
    rw [List.head?_reverse] at hc
    exact h2 c hc

theorem upperJs_idem (l : List Char) : upperJs (upperJs l) = upperJs l := by
  unfold upperJs
  rw [List.map_map]
  exact List.map_congr_left (fun a _ => asciiUpper_idem a)

theorem upperJs_head (s : List Char) (c : Char) (h : (upperJs s).head? = some c) :
    ∃ d, s.head? = some d ∧ c = asciiUpper d := by
  unfold upperJs at h
  rw [List.head?_map] at h
  cases hs : s.head? with
  | none => rw [hs] at h; cases h
  | some d =>
    rw [hs] at h
    simp only [Option.map_some', Option.some.injEq] at h
    exact ⟨d, rfl, h.symm⟩

theorem upperJs_getLast (s : List Char) (c : Char) (h : (upperJs s).getLast? = some c) :
    ∃ d, s.getLast? = some d ∧ c = asciiUpper d := by
  unfold upperJs at h
  rw [List.getLast?_map] at h
  cases hs : s.getLast? with
  | none => rw [hs] at h; cases h
  | some d =>
    rw [hs] at h
    simp only [Option.map_some', Option.some.injEq] at h
    exact ⟨d, rfl, h.symm⟩

theorem normProto_no_space (s : List Char) : ' ' ∉ normProto s := by
  unfold normProto upperJs
  intro h
  rcases List.mem_map.mp h with ⟨d, hd, hup⟩
  by_cases hds : d = ' '
  · subst hds
    exact collapseSpaces_no_space false (trimJs s) hd
  · exact asciiUpper_ne_space d hds hup

theorem normProto_head_not_space (s : List Char) :
    ∀ c, (normProto s).head? = some c → isSpaceJs c = false := by
  intro c h
  unfold normProto at h
  rcases upperJs_head _ _ h with ⟨d, hd, rfl⟩
  apply asciiUpper_not_space
  rcases collapseSpaces_head _ _ hd with h2 | h2
  · rw [h2]; decide
  · exact trimJs_head_not_space s d h2

theorem normProto_last_not_space (s : List Char) :
    ∀ c, (normProto s).getLast? = some c → isSpaceJs c = false := by
  intro c h
  unfold normProto at h
  rcases upperJs_getLast _ _ h with ⟨d, hd, rfl⟩
  apply asciiUpper_not_space
  rcases collapseSpaces_getLast _ _ _ hd with h2 | h2
  · rw [h2]; decide
  · exact trimJs_last_not_space s d h2

theorem normProto_idem (s : List Char) : normProto (normProto s) = normProto s := by
  have expand : ∀ t : List Char, normProto t = upperJs (collapseSpaces false (trimJs t)) :=
    fun t => rfl
  have ht : trimJs (normProto s) = normProto s :=
    trimJs_eq_self _ (normProto_head_not_space s) (normProto_last_not_space s)
  rw [expand (normProto s), ht, collapseSpaces_id _ (normProto_no_space s), expand s,
    upperJs_idem]

theorem normProto_no_slash (s : List Char) (h : ∀ c ∈ s, c ≠ '/') :
    ∀ c ∈ normProto s, c ≠ '/' := by
  intro c hc
  unfold normProto upperJs at hc
  rcases List.mem_map.mp hc with ⟨d, hd, rfl⟩
  apply asciiUpper_ne_slash
  rcases collapseSpaces_mem false (trimJs s) d hd with h2 | h2
  · rw [h2]; decide
  · exact h d (trimJs_subset s d h2)

theorem splitSlash_ne_nil (cs : List Char) : splitSlash cs ≠ [] := by
  cases cs with
  | nil => simp [splitSlash]
  | cons c cs =>
    unfold splitSlash
    by_cases hc : c = '/'
    · simp [hc]
    · simp only [if_neg hc]
      cases splitSlash cs <;> simp

theorem splitSlash_no_slash (cs : List Char) :
    ∀ p ∈ splitSlash cs, ∀ c ∈ p, c ≠ '/' := by
  induction cs with
  | nil =>
    intro p hp c hc
    simp [splitSlash] at hp
    subst hp
    simp at hc
  | cons x xs ih =>
    intro p hp c hc
    unfold splitSlash at hp
    by_cases hx : x = '/'
    · rw [if_pos hx] at hp
      rcases List.mem_cons.mp hp with rfl | hp2
      · simp at hc
      · exact ih p hp2 c hc
    · rw [if_neg hx] at hp
      cases hsp : splitSlash xs with
      | nil => exact absurd hsp (splitSlash_ne_nil xs)
      | cons q qs =>
        rw [hsp] at hp
        rcases List.mem_cons.mp hp with rfl | hp2
        · rcases List.mem_cons.mp hc with rfl | hc2
          · exact hx
          · exact ih q (hsp ▸ List.mem_cons_self _ _) c hc2
        · exact ih p (hsp ▸ List.mem_cons_of_mem _ hp2) c hc

theorem splitSlash_single (p : List Char) (h0 : p ≠ []) (h1 : ∀ c ∈ p, c ≠ '/') :
    splitSlash p = [p] := by
  induction p with
  | nil => cases h0 rfl
  | cons c cs ih =>
    unfold splitSlash
    rw [if_neg (h1 c (List.mem_cons_self _ _))]
    cases hcs : cs with
    | nil => subst hcs; rfl
    | cons y ys =>
      rw [← hcs]
      have hrec : splitSlash cs = [cs] := by
        apply ih
        · rw [hcs]; simp
        · intro d hd
          exact h1 d (List.mem_cons_of_mem _ hd)
      rw [hrec]

theorem stringToPartsc_single (p : List Char) (h0 : p ≠ []) (h1 : ∀ c ∈ p, c ≠ '/') :
    stringToPartsc p = [p] := by
  unfold stringToPartsc
  rw [splitSlash_single p h0 h1]
  simp [h0]

theorem intercalate_single (p : List Char) : List.intercalate ['/'] [p] = p := by
  simp [List.intercalate]

theorem normaliseTail_length (a b : List Char) (rest : List (List Char)) :
    2 ≤ (normaliseTail a b rest).length := by
  unfold normaliseTail
  split
  · simp
  · split
    · simp
    · split
      · simp
      · split
        · simp
        · simp [List.length_append]

theorem normalisePath_single_shape (P : String) (p : List Char)
    (h : normalisePath P = [.str p]) :
    ∃ a, stringToPartsc (List.intercalate ['/'] (stringToPartsc P.data)) = [a]
      ∧ p = normProto a ∧ a ≠ [] ∧ (∀ c ∈ a, c ≠ '/') := by
  unfold normalisePath normaliseTopicc at h
  cases hsp : stringToPartsc (List.intercalate ['/'] (stringToPartsc P.data)) with
  | nil =>
    rw [hsp] at h
    simp at h
  | cons a rest =>
    rw [hsp] at h
    cases rest with
    | nil =>
      simp only [List.cons.injEq, TopicPart.str.injEq, and_true] at h
      have ha : a ∈ stringToPartsc (List.intercalate ['/'] (stringToPartsc P.data)) := by
        rw [hsp]
        exact List.mem_cons_self _ _
      unfold stringToPartsc at ha
      have hmem := List.mem_filter.mp ha
      refine ⟨a, rfl, h.symm, by simpa using hmem.2, ?_⟩
      intro c hc
      exact splitSlash_no_slash _ a hmem.1 c hc
    | cons b rest2 =>
      exfalso
      have hlen := congrArg List.length h
      have h2 := normaliseTail_length a b rest2
      simp only [List.length_singleton] at hlen
      omega

/-- C3 (counterexample): normalisation is not idempotent.  For
`P = "ARC/A"` the first pass reads the house code `A` in base 36
(value 10); re-normalising the joined result `ARC/10` re-reads `10` as
hexadecimal (value 16). -/
theorem normalisePath_not_idempotent :
    normalisePath "ARC/A" = [.str ['A', 'R', 'C'], .num (some 10)]
    ∧ normalisePath ⟨joinTopic (normalisePath "ARC/A")⟩
        = [.str ['A', 'R', 'C'], .num (some 16)]
    ∧ normalisePath ⟨joinTopic (normalisePath "ARC/A")⟩ ≠ normalisePath "ARC/A" := by
  refine ⟨by decide, by decide, by decide⟩

/-- C3 (amended): normalisation is idempotent for every path that
normalises to a protocol segment alone (and a nonempty one): for those,
re-normalising the slash-joined result reproduces the single
normalisation.  Once an id segment is present idempotence is no longer
guaranteed, because the joined id is re-read in hexadecimal — it fails
e.g. at `ARC/A`. -/
theorem normalisePath_idempotent_protocol_only (P : String) (p : List Char)
    (h : normalisePath P = [.str p]) (hne : p ≠ []) :
    normalisePath ⟨joinTopic (normalisePath P)⟩ = normalisePath P := by
  rcases normalisePath_single_shape P p h with ⟨a, hsp, hpa, hane, hslash⟩
  rw [h]
  have hjoin : joinTopic [TopicPart.str p] = p := by
    show List.intercalate ['/'] [p] = p
    exact intercalate_single p
  rw [hjoin]
  have hpslash : ∀ c ∈ p, c ≠ '/' := by
    rw [hpa]
    exact normProto_no_slash a hslash
  show normaliseTopicc (List.intercalate ['/'] (stringToPartsc p)) = [TopicPart.str p]
  rw [stringToPartsc_single p hne hpslash, intercalate_single]
  unfold normaliseTopicc
  rw [stringToPartsc_single p hne hpslash]
  show [TopicPart.str (normProto p)] = [TopicPart.str p]
  rw [hpa, normProto_idem]

/-- Witness for C3's amended theorem: `"arc"` normalises to the single
protocol part `ARC`, and re-normalising the joined result is stable. -/
theorem normalisePath_idempotent_protocol_only_witness :
    normalisePath "arc" = [.str ['A', 'R', 'C']]
    ∧ normalisePath ⟨joinTopic (normalisePath "arc")⟩ = normalisePath "arc" :=
  ⟨by decide,
    normalisePath_idempotent_protocol_only "arc" ['A', 'R', 'C'] (by decide) (by decide)⟩

theorem extractNumber_hasDigit (cs : List Char) (q : Frac) (h : extractNumber cs = some q) :
    hasDigit cs = true := by
  induction cs with
  | nil => simp [extractNumber] at h
  | cons c cs ih =>
    by_cases hc : isDigitChar c = true
    · simp [hasDigit, hc]
    · have heq : extractNumber (c :: cs) = extractNumber cs := by
        unfold extractNumber
        rw [List.dropWhile_cons]
        simp [hc]
      rw [heq] at h
      have := ih h
      simp only [hasDigit, List.any_cons, Bool.or_eq_true]
      right
      simpa [hasDigit] using this

/-! # Claims -/

/-- C1 (counterexample): `getRfxcomSubtype` does not stop at the first
family whose protocol table contains the name.  With protocol `P` in
both `famA` (subtype 3) and `famB` (subtype 7), the scan returns famB's
subtype 7 and caches famB's transmitter, although the first matching
family of the candidate list is famA with subtype 3. -/
theorem getRfxcomSubtype_first_match_counterexample :
    getRfxcomSubtype [] "P" [⟨"famA", [("P", 3)]⟩, ⟨"famB", [("P", 7)]⟩] none
        = (7, [("P", ⟨"famB", 7, none⟩)])
    ∧ ([⟨"famA", [("P", 3)]⟩, ⟨"famB", [("P", 7)]⟩] : List TxFamily).find?
        (fun f => (alookup "P" f.table).isSome) = some ⟨"famA", [("P", 3)]⟩
    ∧ alookup "P" ([("P", 3)] : List (String × Int)) = some 3
    ∧ (7 : Int) ≠ 3 := by
  refine ⟨by decide, by decide, by decide, by decide⟩

/-- C1 (amended): for an uncached protocol name, `getRfxcomSubtype`
scans the whole candidate list; every matching family instantiates and
caches a transmitter, so the LAST family whose protocol table contains
the name wins, and its subtype is returned; if no family matches the
result is -1 and the cache is unchanged, without throwing.  A cached
name short-circuits to the cached subtype. -/
theorem getRfxcomSubtype_last_match (cache : List (String × Transmitter)) (pn : String)
    (fams : List TxFamily) (opts : Option String) :
    (∀ t, alookup pn cache = some t →
       getRfxcomSubtype cache pn fams opts = (t.subtype, cache)) ∧
    (alookup pn cache = none → lastMatch pn fams = none →
       getRfxcomSubtype cache pn fams opts = (-1, cache)) ∧
    (alookup pn cache = none → ∀ fname st, lastMatch pn fams = some (fname, st) →
       getRfxcomSubtype cache pn fams opts = (st, setCache pn ⟨fname, st, opts⟩ cache)) := by
  refine ⟨?_, ?_, ?_⟩
  · intro t ht
    unfold getRfxcomSubtype
    rw [ht]
  · intro hc hl
    unfold getRfxcomSubtype
    rw [hc, getRfxcomSubtype_fold pn opts fams ((-1 : Int), cache), hl]
  · intro hc fname st hl
    unfold getRfxcomSubtype
    rw [hc, getRfxcomSubtype_fold pn opts fams ((-1 : Int), cache), hl]

/-- Witness for C1's amended theorem at a concrete cache and family
list. -/
theorem getRfxcomSubtype_last_match_witness :
    alookup "LIGHTWAVERF" ([] : List (String × Transmitter)) = none
    ∧ lastMatch "LIGHTWAVERF"
        [⟨"lighting1", [("ARC", 1)]⟩, ⟨"lighting5", [("LIGHTWAVERF", 0)]⟩] = some ("lighting5", 0)
    ∧ getRfxcomSubtype [] "LIGHTWAVERF"
        [⟨"lighting1", [("ARC", 1)]⟩, ⟨"lighting5", [("LIGHTWAVERF", 0)]⟩] none
        = (0, setCache "LIGHTWAVERF" ⟨"lighting5", 0, none⟩ []) :=
  ⟨by decide, by decide,
    (getRfxcomSubtype_last_match [] "LIGHTWAVERF"
        [⟨"lighting1", [("ARC", 1)]⟩, ⟨"lighting5", [("LIGHTWAVERF", 0)]⟩] none).2.2
      (by decide) "lighting5" 0 (by decide)⟩

/-- C2: at teardown the close handler of the detector node passes the
heartbeat entry object — not its `interval` timer handle — to
`clearInterval`, which ignores it, so the heartbeat interval (timer 17
here) is still live after the close handler ran and can still emit its
synthetic Silent message; by contrast `purgeTimers` does cancel the
retransmission timers, whose map stores the bare handle. -/
theorem detectorClose_leaves_heartbeat_running :
    detectorCloseHeartbeats [("X10_DOOR/0x5A", ⟨6, 17⟩)] [17] = [17]
    ∧ clearIntervalJs (.handle 17) [17] = []
    ∧ purgeTimers [("AC/0x123456/1", 5)] [5] = ([], []) := by
  refine ⟨by decide, by decide, by decide⟩

/-- C4: `checkTopic` holds exactly when every position of the pattern is
defined and strictly equal to the corresponding candidate position (a
missing candidate position never matches), and the two concrete prefix
examples behave as specified. -/
theorem checkTopic_prefix_semantics :
    (∀ parts pattern : List TopicPart,
       checkTopic parts pattern = true ↔
         ∀ i < pattern.length,
           ∃ c p, parts[i]? = some c ∧ pattern[i]? = some p ∧ jsEqPart c p = true)
    ∧ checkTopic (normaliseTopic (some "LIGHTING2/0xA1/3"))
        (normaliseTopic (some "LIGHTING2/0xA1")) = true
    ∧ checkTopic (normaliseTopic (some "LIGHTING2/0xA1/3"))
        (normaliseTopic (some "LIGHTING2/0xA2")) = false :=
  ⟨checkTopic_iff, by decide, by decide⟩

/-- C5: in every reachable scheduler state a topic key has at most one
pending retransmission timer, and arming a key twice in a row cancels
the first timer (`s.next`), which is no longer pending afterwards. -/
theorem retransmission_at_most_one_timer_per_key :
    (∀ (md : Bool) (s : RetransmitState), RetransmitReachable md s →
       ∀ k : String, pendingFor s k ≤ 1)
    ∧ (∀ (s : RetransmitState) (k : String),
        (s.next, k) ∈ (armRetransmission k s).active
        ∧ s.next ∉ ((armRetransmission k (armRetransmission k s)).active.map Prod.fst)) := by
  constructor
  · intro md s h k
    obtain ⟨hLook, hNodup, _⟩ := retransmitInv_reachable md s h
    exact pending_le_one_aux s.map k s.active hLook hNodup
  · intro s k
    constructor
    · rw [armRetransmission_eq]
      exact List.mem_cons_self _ _
    · have h1 : alookup k (armRetransmission k s).map = some s.next := by
        rw [armRetransmission_eq]
        simp [alookup]
      rw [armRetransmission_eq (s := armRetransmission k s), h1]
      intro hmem
      simp only [List.map_cons, List.mem_cons] at hmem
      rcases hmem with h2 | h2
      · rw [armRetransmission_eq] at h2
        simp at h2
      · rcases List.mem_map.mp h2 with ⟨p, hp, hfst⟩
        have := List.of_mem_filter hp
        simp only [decide_eq_true_eq] at this
        exact this hfst

/-- Witness for C5 at a concrete reachable state: after arming key
`AC/0x1/1` once from the initial state, the key has exactly one pending
timer. -/
theorem retransmission_at_most_one_timer_per_key_witness :
    pendingFor (armRetransmission "AC/0x1/1" ⟨[], [], 0⟩) "AC/0x1/1" ≤ 1 :=
  retransmission_at_most_one_timer_per_key.1 true _
    (RetransmitReachable.arm "AC/0x1/1" RetransmitReachable.init) "AC/0x1/1"

/-- C6 (counterexample): not every output-node input handler is
exception-safe.  The `rfx-PT2262-out` handler, given a message with
`raw: null` and no usable topic/payload pair (topic source `msg`, no
message topic, payload undefined), reads `msg.raw.data` behind a guard
that only excludes `undefined`, and the resulting TypeError escapes the
handler — no collaborator misbehaviour needed (`sendBeh` is the normal
return). -/
theorem pt2262OutHandler_throws_on_null_raw :
    (runPT2262OutHandler "msg" [] none false .nullv none none).thrown
        = some (.err "TypeError: Cannot read properties of null (reading 'data')")
    ∧ (runPT2262OutHandler "msg" [] none false .nullv none none).thrown ≠ none := by
  refine ⟨by decide, by decide⟩

/-- C6 (amended): the lights-out and blinds-out input handlers never
let an exception escape: for every topic source, configured topic,
message topic and every behaviour of the collaborator calls
(transmitter construction, level-range probing, command dispatch — each
free to throw an arbitrary Error or non-Error value), the handler
finishes with `thrown = none`.  This does not extend to every output
node; see the counterexample on the `rfx-PT2262-out` handler. -/
theorem output_handlers_never_throw :
    ∀ (topicSource : String) (nodeTopic : List (List Char)) (msgTopic : Option String)
      (subtypeBeh : Except JsThrown Int) (rangeBeh : Except JsThrown (List Int))
      (cmdBeh cmdBeh2 : Option JsThrown),
      (runLightsOutHandler topicSource nodeTopic msgTopic subtypeBeh rangeBeh cmdBeh).thrown
          = none
      ∧ (runBlindsOutHandler topicSource nodeTopic msgTopic subtypeBeh cmdBeh2).thrown
          = none := by
  intro topicSource nodeTopic msgTopic subtypeBeh rangeBeh cmdBeh cmdBeh2
  constructor
  · unfold runLightsOutHandler
    cases resolvePath topicSource nodeTopic msgTopic with
    | nil => rfl
    | cons p0 rest => exact runCatchAll_thrown _
  · unfold runBlindsOutHandler
    cases resolvePath topicSource nodeTopic msgTopic with
    | nil => rfl
    | cons p0 rest =>
      simp only []
      split
      · rfl
      · exact runCatchAll_thrown _

/-- C7: for every string dimming payload carrying digits (a bare
fraction or a percentage), `parseDimLevel` resolves the parsed value —
divided by 100 when a percent sign follows the digits — through
`clampToRange`, which clamps to [0,1] and rounds
`lo + value*(hi - lo)`; in particular `"50%"` on range [0,31] gives
level 16, and `"dim+"` on an empty range gives the relative-increase
directive. -/
theorem parseDimLevel_resolution :
    (∀ (payload : String) (q : Frac) (lo hi : Int),
       extractNumber payload.data = some q →
       parseDimLevel payload none [lo, hi] =
         clampToRange
           (if pctAfterDigit payload.data then jsDiv100 (.rat q) else .rat q) [lo, hi])
    ∧ parseDimLevel "50%" none [0, 31] = .level 16
    ∧ parseDimLevel "dim+" none [] = .plus := by
  refine ⟨?_, by decide, by decide⟩
  intro payload q lo hi h
  have hd : hasDigit payload.data = true := extractNumber_hasDigit _ _ h
  simp [parseDimLevel, h, hd]

/-- Witness for C7's percentage resolution at payload "50%". -/
theorem parseDimLevel_resolution_witness :
    extractNumber "50%".data = some ⟨50, 1⟩
    ∧ parseDimLevel "50%" none [0, 31] =
        clampToRange
          (if pctAfterDigit "50%".data then jsDiv100 (.rat ⟨50, 1⟩) else .rat ⟨50, 1⟩)
          [0, 31] :=
  ⟨by decide, parseDimLevel_resolution.1 "50%" ⟨50, 1⟩ 0 31 (by decide)⟩

/-- C8 (counterexample): the group-address test is a substring regex,
so the token `"+5"` — which is not one of `all`/`group`/`+` and has
rounded numeric value 5 — is mapped to 0. -/
theorem parseUnitAddress_plus5_counterexample :
    parseUnitAddress (some "+5") = JsNum.rat (Frac.ofNat 0)
    ∧ ("+5" : String) ∉ (["all", "group", "+"] : List String)
    ∧ roundJs (numberJs "+5") = JsNum.rat (Frac.ofInt 5)
    ∧ JsNum.rat (Frac.ofNat 0) ≠ JsNum.rat (Frac.ofInt 5) := by
  refine ⟨by decide, by decide, by decide, by decide⟩

/-- C8 (amended): `parseUnitAddress` returns 0 for `undefined` and for
every token CONTAINING `all`, `group` or `+` (case-insensitively) as a
substring — in particular for the exact tokens `all`, `group`, `+` —
and otherwise returns `Math.round(Number(token))`; `"7"` gives 7. -/
theorem parseUnitAddress_amended :
    parseUnitAddress none = JsNum.rat (Frac.ofNat 0)
    ∧ parseUnitAddress (some "all") = JsNum.rat (Frac.ofNat 0)
    ∧ parseUnitAddress (some "group") = JsNum.rat (Frac.ofNat 0)
    ∧ parseUnitAddress (some "+") = JsNum.rat (Frac.ofNat 0)
    ∧ parseUnitAddress (some "7") = JsNum.rat (Frac.ofInt 7)
    ∧ (∀ s : String,
        ((∃ l r, lowerJs s.data = l ++ ['a', 'l', 'l'] ++ r) ∨
         (∃ l r, lowerJs s.data = l ++ ['g', 'r', 'o', 'u', 'p'] ++ r) ∨
         '+' ∈ s.data) →
        parseUnitAddress (some s) = JsNum.rat (Frac.ofNat 0))
    ∧ (∀ s : String,
        ¬((∃ l r, lowerJs s.data = l ++ ['a', 'l', 'l'] ++ r) ∨
          (∃ l r, lowerJs s.data = l ++ ['g', 'r', 'o', 'u', 'p'] ++ r) ∨
          '+' ∈ s.data) →
        parseUnitAddress (some s) = roundJs (numberJs s)) := by
  refine ⟨by decide, by decide, by decide, by decide, by decide, ?_, ?_⟩
  · intro s h
    have hc : (containsCI ['a', 'l', 'l'] s.data || containsCI ['g', 'r', 'o', 'u', 'p'] s.data
        || s.data.contains '+') = true := by
      rcases h with ⟨l, r, h⟩ | ⟨l, r, h⟩ | h
      · simp only [Bool.or_eq_true]
        exact Or.inl (Or.inl ((hasSub_iff _ _).mpr ⟨l, r, h⟩))
      · simp only [Bool.or_eq_true]
        exact Or.inl (Or.inr ((hasSub_iff _ _).mpr ⟨l, r, h⟩))
      · simp only [Bool.or_eq_true]
        exact Or.inr (by simpa [List.contains] using h)
    rw [show parseUnitAddress (some s) = parseUnitAddressc (some s.data) from rfl,
      show parseUnitAddressc (some s.data) =
        (if containsCI ['a', 'l', 'l'] s.data || containsCI ['g', 'r', 'o', 'u', 'p'] s.data
            || s.data.contains '+' then JsNum.rat (Frac.ofNat 0)
         else roundJs (numberJsc s.data)) from rfl]
    simp only [hc, if_true]
  · intro s h
    push_neg at h
    obtain ⟨h1, h2, h3⟩ := h
    have hc : (containsCI ['a', 'l', 'l'] s.data || containsCI ['g', 'r', 'o', 'u', 'p'] s.data
        || s.data.contains '+') = false := by
      simp only [Bool.or_eq_false_iff]
      refine ⟨⟨?_, ?_⟩, ?_⟩
      · rw [Bool.eq_false_iff]
        intro hcc
        rcases (hasSub_iff _ _).mp hcc with ⟨l, r, hh⟩
        exact h1 l r hh
      · rw [Bool.eq_false_iff]
        intro hcc
        rcases (hasSub_iff _ _).mp hcc with ⟨l, r, hh⟩
        exact h2 l r hh
      · rw [Bool.eq_false_iff]
        intro hcc
        exact h3 (by simpa [List.contains] using hcc)
    rw [show parseUnitAddress (some s) = parseUnitAddressc (some s.data) from rfl,
      show parseUnitAddressc (some s.data) =
        (if containsCI ['a', 'l', 'l'] s.data || containsCI ['g', 'r', 'o', 'u', 'p'] s.data
            || s.data.contains '+' then JsNum.rat (Frac.ofNat 0)
         else roundJs (numberJsc s.data)) from rfl]
    simp only [hc, if_false]
    rfl

/-- Witness for C8's amended theorem: `"wall6"` contains `all`, so it
resolves to 0; `"9"` contains none of the tokens, so it resolves to
`Math.round(Number("9")) = 9`. -/
theorem parseUnitAddress_amended_witness :
    parseUnitAddress (some "wall6") = JsNum.rat (Frac.ofNat 0)
    ∧ parseUnitAddress (some "9") = roundJs (numberJs "9") :=
  ⟨parseUnitAddress_amended.2.2.2.2.2.1 "wall6" (Or.inl ⟨['w'], ['6'], by decide⟩),
    parseUnitAddress_amended.2.2.2.2.2.2 "9" (by
      intro h
      rcases h with ⟨l, r, h⟩ | ⟨l, r, h⟩ | h
      · have : lowerJs "9".data = ['9'] := by decide
        rw [this] at h
        cases l <;> simp_all
      · have : lowerJs "9".data = ['9'] := by decide
        rw [this] at h
        cases l <;> simp_all
      · simp at h)⟩

/-- C9: a missing port-config reference makes the `RfxBlindsOutNode`
constructor throw a TypeError (line 2510 dereferences the null
reference before the check), so no error is reported on the error
channel there; the detector node reports nothing at all; `RfxLightsInNode`
shows the intended behaviour: one error report and no further action. -/
theorem missing_port_constructor_effects :
    rfxBlindsOutConstruct none = [.thrownTypeError]
    ∧ rfxDetectorsConstruct none = []
    ∧ rfxLightsInConstruct none = [.errorReport "missing config: rfxtrx-port"] := by
  refine ⟨by decide, by decide, by decide⟩

/-- C10: a missing or non-string configured topic normalises to the
empty pattern, every candidate matches the empty pattern, and hence the
input-node forwarding guard passes for every message topic and every
topic-source mode. -/
theorem empty_pattern_forwards_everything :
    normaliseTopic none = []
    ∧ (∀ candidate : List TopicPart, checkTopic candidate [] = true)
    ∧ (∀ (topicSource : String) (msgTopic : Option String),
        (topicSource == "all" || normaliseAndCheckTopic msgTopic (normaliseTopic none)) = true) := by
  refine ⟨rfl, ?_, ?_⟩
  · intro c
    cases c <;> rfl
  · intro src t
    have h : normaliseAndCheckTopic t (normaliseTopic none) = true := by
      unfold normaliseAndCheckTopic
      rw [show normaliseTopic none = [] from rfl]
      generalize normaliseTopic t = x
      cases x <;> rfl
    rw [h, Bool.or_true]

end Rfxcom
